import Mathlib

/- Verification of the GuassRankScaler implementation
(src/preprocessors/gauss_rank_scaler.py) against its natural-language
specification.

The model works column-wise: the code transposes the input, processes one
feature column at a time and transposes back, so a dataset is represented
here as a list of columns. Finite float arithmetic is modelled by exact
rationals; the IEEE special values that matter for the degenerate
single-unique-value feature are modelled by the FQ type. -/

set_option allowUnsafeReducibility true
attribute [local semireducible] Rat.add Rat.mul Rat.sub Rat.div Rat.inv Rat.ofScientific

namespace GaussRankScaler

/- ---------- basic numeric steps of _fit (lines 92-98) ---------- -/

/-- Rational clipping, mirroring np.clip on finite inputs (line 97). -/
def clipQ (v lo hi : ℚ) : ℚ := min (max v lo) hi

/-- Traversal keeping each value's first occurrence: an entry is kept exactly
when it has not been seen earlier. -/
def dropDupAux (seen : List ℚ) : List ℚ → List ℚ
  | [] => []
  | a :: l => if a ∈ seen then dropDupAux seen l else a :: dropDupAux (a :: seen) l

/-- Model of drop_duplicates (lines 141-145): np.unique(x, return_index=True)
yields the index of the first occurrence of each distinct value, the boolean
mask keeps exactly those positions, and boolean indexing preserves the
original order.  The result is therefore the subsequence of first
occurrences, in original order (not necessarily sorted). -/
def dropDuplicates (x : List ℚ) : List ℚ := dropDupAux [] x

/-- Comparison of two positions of a list by the values they hold; the sort
key used to model np.argsort. -/
def keyLe {α : Type} [LinearOrder α] [Inhabited α] (l : List α) (i j : ℕ) : Prop :=
  l.getD i default ≤ l.getD j default

instance {α : Type} [LinearOrder α] [Inhabited α] (l : List α) :
    DecidableRel (keyLe l) :=
  fun i j => inferInstanceAs (Decidable (l.getD i default ≤ l.getD j default))

instance {α : Type} [LinearOrder α] [Inhabited α] (l : List α) :
    IsTotal ℕ (keyLe l) :=
  ⟨fun i j => le_total (l.getD i default) (l.getD j default)⟩

instance {α : Type} [LinearOrder α] [Inhabited α] (l : List α) :
    IsTrans ℕ (keyLe l) :=
  ⟨fun _ _ _ h h' => le_trans h h'⟩

/-- Model of np.argsort (line 94): the positions 0..len-1 sorted by the value
they hold.  Both call sites pass a duplicate-free list, so tie handling and
the particular sorting algorithm are immaterial; a stable sort is used. -/
def argsortBy {α : Type} [LinearOrder α] [Inhabited α] (l : List α) : List ℕ :=
  List.insertionSort (keyLe l) (List.range l.length)

/-- rank = np.argsort(np.argsort(x)) (line 94). -/
def rankOf (u : List ℚ) : List ℕ := argsortBy (argsortBy u)

/-- np.max on a list of natural-number ranks (line 96). -/
def maxNat (l : List ℕ) : ℕ := l.foldr max 0

/-- bound = 1.0 - self.epsilon (line 95). -/
def bound (ε : ℚ) : ℚ := 1 - ε

/-- factor = np.max(rank) / 2.0 * bound (line 96); Python evaluates this as
(max(rank) / 2) * bound. -/
def factor (maxRank : ℕ) (ε : ℚ) : ℚ := (maxRank : ℚ) / 2 * bound ε

/-- The affine rescaling rank / factor - bound of a single rank (line 97),
before the clip. -/
def unclippedQ (maxRank : ℕ) (ε : ℚ) (r : ℕ) : ℚ :=
  (r : ℚ) / factor maxRank ε - bound ε

/-- scaled_rank = np.clip(rank / factor - bound, -bound, bound) (line 97) on
exact rationals.  The factor is nonzero whenever the feature has at least two
distinct values; the zero-factor case is modelled faithfully by scaledRankF
below. -/
def scaledRank (ranks : List ℕ) (ε : ℚ) : List ℚ :=
  ranks.map fun r => clipQ (unclippedQ (maxNat ranks) ε r) (-(bound ε)) (bound ε)

/-- Number of entries of u smaller than v: the rank that
np.argsort(np.argsort(u)) assigns to an entry v of a duplicate-free u. -/
def countLt (u : List ℚ) (v : ℚ) : ℕ := (u.filter (fun a => a < v)).length

/-- The scaled quantile that line 97 assigns to the entry of a duplicate-free
column u holding the value v: the rank of v is the number of entries smaller
than v. -/
def quantileOf (u : List ℚ) (ε : ℚ) (v : ℚ) : ℚ :=
  clipQ (unclippedQ (maxNat (rankOf u)) ε (countLt u v)) (-(bound ε)) (bound ε)

/-- No rank other than the maximal one reaches the upper clipping bound.
Under this condition the clipped quantile sequence is strictly increasing;
when it fails, at least two top quantiles tie at +bound. -/
def noTopClip (x : List ℚ) (ε : ℚ) : Prop :=
  ∀ r : ℕ, r < maxNat (rankOf (dropDuplicates x)) →
    unclippedQ (maxNat (rankOf (dropDuplicates x))) ε r < bound ε

instance (x : List ℚ) (ε : ℚ) : Decidable (noTopClip x ε) := by
  unfold noTopClip; infer_instance

/- ---------- IEEE special values for the degenerate division ---------- -/

/-- An IEEE double as far as this code needs it: a finite rational or one of
the special values. -/
inductive FQ where
  | fin : ℚ → FQ
  | pinf : FQ
  | ninf : FQ
  | nan : FQ
deriving DecidableEq

/-- IEEE division of finite doubles: 0/0 is NaN, x/0 is a signed infinity. -/
def fqDiv (a b : ℚ) : FQ :=
  if b = 0 then (if a = 0 then FQ.nan else if 0 < a then FQ.pinf else FQ.ninf)
  else FQ.fin (a / b)

/-- IEEE subtraction of a finite double from a possibly special value. -/
def fqSub (v : FQ) (c : ℚ) : FQ :=
  match v with
  | FQ.fin a => FQ.fin (a - c)
  | FQ.pinf => FQ.pinf
  | FQ.ninf => FQ.ninf
  | FQ.nan => FQ.nan

/-- np.clip on IEEE values: NaN propagates, the infinities clamp to the
bounds, finite values clip as usual. -/
def fqClip (v : FQ) (lo hi : ℚ) : FQ :=
  match v with
  | FQ.fin a => FQ.fin (clipQ a lo hi)
  | FQ.pinf => FQ.fin hi
  | FQ.ninf => FQ.fin lo
  | FQ.nan => FQ.nan

/-- np.isfinite. -/
def FQ.isFinite : FQ → Bool
  | FQ.fin _ => true
  | _ => false

/-- Line 97 with the IEEE semantics of the division, as numpy executes it. -/
def scaledRankF (ranks : List ℕ) (ε : ℚ) : List FQ :=
  ranks.map fun r =>
    fqClip (fqSub (fqDiv (r : ℚ) (factor (maxNat ranks) ε)) (bound ε))
      (-(bound ε)) (bound ε)

/- ---------- the interpolation function (scipy interp1d) ---------- -/

/-- Comparison of control points by their x coordinate, the sort key of the
stable mergesort interp1d applies when assume_sorted is False (the default;
the constructor arguments of line 74 do not set it). -/
def pairLe (p q : ℚ × ℚ) : Prop := p.1 ≤ q.1

instance : DecidableRel pairLe :=
  fun p q => inferInstanceAs (Decidable (p.1 ≤ q.1))

instance : IsTotal (ℚ × ℚ) pairLe := ⟨fun p q => le_total p.1 q.1⟩

instance : IsTrans (ℚ × ℚ) pairLe := ⟨fun _ _ _ h h' => le_trans h h'⟩

/-- Stable sort of control points by x coordinate, modelling
np.argsort(x, kind="mergesort") inside interp1d. -/
def sortPairs (l : List (ℚ × ℚ)) : List (ℚ × ℚ) := List.insertionSort pairLe l

/-- Control points of the interpolation function returned by _fit (line 98):
interp1d(x, scaled_rank) over the deduplicated values and their scaled ranks,
sorted by x. -/
def fitPoints (x : List ℚ) (ε : ℚ) : List (ℚ × ℚ) :=
  sortPairs ((dropDuplicates x).zip (scaledRank (rankOf (dropDuplicates x)) ε))

/-- One linear segment y0 + (t - x0) * slope, the formula of scipy's
_evaluate_linear. -/
def interpSeg (x0 y0 x1 y1 t : ℚ) : ℚ := y0 + (t - x0) * (y1 - y0) / (x1 - x0)

/-- Piecewise-linear evaluation with linear extrapolation from the boundary
segments (kind='linear', fill_value='extrapolate'; lines 74, 98).  scipy
clips the searchsorted segment index into [1, m-1], so a query at or left of
the second point uses the first segment and a query right of the second-last
point uses the last segment.  interp1d itself refuses fewer than two points
for the linear kind; the values returned here for such lists are never used
by the theorems below. -/
def interpEval : List (ℚ × ℚ) → ℚ → ℚ
  | [], _ => 0
  | [p], _ => p.2
  | p :: q :: rest, t =>
    if t ≤ q.1 ∨ rest = [] then interpSeg p.1 p.2 q.1 q.2 t
    else interpEval (q :: rest) t

/-- The linear extension of the first control segment, which scipy uses for
every query at or left of the second control point. -/
def firstSeg : List (ℚ × ℚ) → ℚ → ℚ
  | [], _ => 0
  | [p], _ => p.2
  | p :: q :: _, t => interpSeg p.1 p.2 q.1 q.2 t

/-- The linear extension of the last control segment, which scipy uses for
every query right of the second-last control point. -/
def lastSeg : List (ℚ × ℚ) → ℚ → ℚ
  | [], _ => 0
  | [p], _ => p.2
  | [p, q], t => interpSeg p.1 p.2 q.1 q.2 t
  | _ :: q :: r :: rest, t => lastSeg (q :: r :: rest) t

/-- Model of the external scipy.special pair (erf, erfinv): only the identity
erf(erfinv(q)) = q on the open interval (-1, 1), where erfinv is defined, is
used by the code paths under verification (spec section 4.2 and glossary). -/
structure ErfModel where
  erf : ℚ → ℚ
  erfinv : ℚ → ℚ
  left_inv : ∀ q : ℚ, -1 < q → q < 1 → erf (erfinv q) = q

/-- A conforming instantiation of ErfModel, used to evaluate the pipeline on
concrete inputs. -/
def erfId : ErfModel := { erf := id, erfinv := id, left_inv := fun _ _ _ => rfl }

/-- _transform on one feature value (line 118): erfinv of the interpolated
scaled quantile. -/
def transform1 (M : ErfModel) (pts : List (ℚ × ℚ)) (v : ℚ) : ℚ :=
  M.erfinv (interpEval pts v)

/-- Control points of the inverse interpolant that _inverse_transform builds
afresh on every call (line 138): interp1d(f.y, f.x), i.e. the stored sorted
control points swapped and re-sorted by the quantile coordinate. -/
def invPoints (pts : List (ℚ × ℚ)) : List (ℚ × ℚ) :=
  sortPairs (pts.map Prod.swap)

/-- _inverse_transform on one feature value (lines 138-139): the swapped
interpolant evaluated at erf of the Gaussian score. -/
def inverseTransform1 (M : ErfModel) (pts : List (ℚ × ℚ)) (z : ℚ) : ℚ :=
  interpEval (invPoints pts) (M.erf z)

/- ---------- matrix-level operations ---------- -/

/-- fit (line 89): one interpolation function per column, in column order. -/
def fitAll (cols : List (List ℚ)) (ε : ℚ) : List (List (ℚ × ℚ)) :=
  cols.map fun c => fitPoints c ε

/-- Errors surfaced by the scaler: sklearn's NotFittedError (line 109, 129),
check_array's rejection of non-finite input (lines 87, 112, 132), and the
IndexError raised by interp_func_[i] for a column index past the fitted list
(lines 114, 118, 134, 137). -/
inductive ScalerErr where
  | notFitted : ScalerErr
  | nonFinite : ScalerErr
  | columnOutOfRange : ScalerErr
deriving DecidableEq

/-- transform (line 114): each input column at position i is transformed with
interp_func_[i]; a position past the end of the fitted list raises. -/
def transformCols (M : ErfModel) (fs : List (List (ℚ × ℚ))) :
    ℕ → List (List ℚ) → Except ScalerErr (List (List ℚ))
  | _, [] => Except.ok []
  | i, c :: cs =>
    match fs[i]? with
    | none => Except.error ScalerErr.columnOutOfRange
    | some pts =>
      (transformCols M fs (i + 1) cs).map fun rest => c.map (transform1 M pts) :: rest

/-- inverse_transform (line 134): like transform, with the per-column inverse
maps. -/
def inverseCols (M : ErfModel) (fs : List (List (ℚ × ℚ))) :
    ℕ → List (List ℚ) → Except ScalerErr (List (List ℚ))
  | _, [] => Except.ok []
  | i, c :: cs =>
    match fs[i]? with
    | none => Except.error ScalerErr.columnOutOfRange
    | some pts =>
      (inverseCols M fs (i + 1) cs).map fun rest => c.map (inverseTransform1 M pts) :: rest

/-- inverse_transform applied to the output of transform, both against the
functions fitted on the same data. -/
def roundTripMat (M : ErfModel) (cols : List (List ℚ)) (ε : ℚ) :
    Except ScalerErr (List (List ℚ)) :=
  (transformCols M (fitAll cols ε) 0 cols).bind (inverseCols M (fitAll cols ε) 0)

/- ---------- input validation and instance state ---------- -/

/-- check_array with force_all_finite=True on one column: every entry must be
finite (lines 87, 112, 132). -/
def checkCol : List FQ → Except ScalerErr (List ℚ)
  | [] => Except.ok []
  | v :: vs =>
    match v with
    | FQ.fin q => (checkCol vs).map fun rest => q :: rest
    | _ => Except.error ScalerErr.nonFinite

/-- check_array on a whole dataset, given as its list of columns. -/
def checkArray : List (List FQ) → Except ScalerErr (List (List ℚ))
  | [] => Except.ok []
  | c :: cs =>
    match checkCol c with
    | Except.error e => Except.error e
    | Except.ok c' => (checkArray cs).map fun rest => c' :: rest

/-- Whether a dataset holds any NaN or infinity anywhere. -/
def hasNonFinite (X : List (List FQ)) : Prop :=
  ∃ c ∈ X, ∃ v ∈ c, v.isFinite = false

instance (X : List (List FQ)) : Decidable (hasNonFinite X) := by
  unfold hasNonFinite; infer_instance

/-- State of a GuassRankScaler instance: its configuration and the
interp_func_ attribute, which does not exist before the first fit. -/
structure Scaler where
  epsilon : ℚ
  interpFuncs : Option (List (List (ℚ × ℚ)))

/-- fit (lines 87-90): validate, then overwrite interp_func_.  A validation
error propagates before the attribute is assigned, so the state is returned
unchanged in that case. -/
def fitM (s : Scaler) (X : List (List FQ)) : Scaler × Except ScalerErr Unit :=
  match checkArray X with
  | Except.error e => (s, Except.error e)
  | Except.ok cols =>
    ({ s with interpFuncs := some (fitAll cols s.epsilon) }, Except.ok ())

/-- transform (lines 100-115): check_is_fitted, then check_array, then the
per-column maps; no attribute of self is written. -/
def transformM (M : ErfModel) (s : Scaler) (X : List (List FQ)) :
    Scaler × Except ScalerErr (List (List ℚ)) :=
  match s.interpFuncs with
  | none => (s, Except.error ScalerErr.notFitted)
  | some fs =>
    match checkArray X with
    | Except.error e => (s, Except.error e)
    | Except.ok cols => (s, transformCols M fs 0 cols)

/-- inverse_transform (lines 120-135): check_is_fitted, then check_array,
then the per-column inverse maps built afresh from the stored forward
points; no attribute of self is written. -/
def inverseM (M : ErfModel) (s : Scaler) (X : List (List FQ)) :
    Scaler × Except ScalerErr (List (List ℚ)) :=
  match s.interpFuncs with
  | none => (s, Except.error ScalerErr.notFitted)
  | some fs =>
    match checkArray X with
    | Except.error e => (s, Except.error e)
    | Except.ok cols => (s, inverseCols M fs 0 cols)

/- ---------- the parallel fan-out (joblib Parallel) ---------- -/

/-- Cutting a list into contiguous packets, fuelled by a bound on the number
of packets; every packet consumes at least one task, so a fuel of the list's
length always suffices. -/
def chunksOfF {α : Type} (k : ℕ) : ℕ → List α → List (List α)
  | _, [] => []
  | 0, l => [l]
  | fuel + 1, a :: l => (a :: l.take (k - 1)) :: chunksOfF k fuel (l.drop (k - 1))

/-- Contiguous work packets of k tasks each, as handed to the workers. -/
def chunksOf {α : Type} (k : ℕ) (l : List α) : List (List α) :=
  chunksOfF k l.length l

/-- Concatenation of the per-worker result lists. -/
def catLists {α : Type} : List (List α) → List α
  | [] => []
  | l :: L => l ++ catLists L

/-- Tasks paired with their original position. -/
def withIdx {α : Type} : ℕ → List α → List (ℕ × α)
  | _, [] => []
  | i, a :: l => (i, a) :: withIdx (i + 1) l

/-- Comparison of indexed results by original task index. -/
def pairLeN {β : Type} (p q : ℕ × β) : Prop := p.1 ≤ q.1

instance {β : Type} : DecidableRel (pairLeN (β := β)) :=
  fun p q => inferInstanceAs (Decidable (p.1 ≤ q.1))

instance {β : Type} : IsTotal (ℕ × β) pairLeN := ⟨fun p q => Nat.le_total p.1 q.1⟩

instance {β : Type} : IsTrans (ℕ × β) pairLeN := ⟨fun _ _ _ h h' => le_trans h h'⟩

/-- Reassembly of worker results strictly by original task index. -/
def sortByIdx {β : Type} (l : List (ℕ × β)) : List (ℕ × β) :=
  List.insertionSort pairLeN l

/-- Model of Parallel(n_jobs=n)(delayed(f)(i, x) for i, x in enumerate(...))
(lines 89, 114, 134): the indexed tasks are cut into work packets, each
worker maps its packet, and the collected results are reassembled by
original task index, which is joblib's contract of returning results in
input order (spec sections 5 and 6). -/
def runParallel {α β : Type} (n : ℕ) (f : ℕ → α → β) (l : List α) : List β :=
  let w := max 1 n
  let k := max 1 ((l.length + w - 1) / w)
  let packets := chunksOf k (withIdx 0 l)
  let results := packets.map fun pk => pk.map fun p => (p.1, f p.1 p.2)
  (sortByIdx (catLists results)).map Prod.snd

/-- fit's parallel fan-out over columns with n_jobs = n (line 89). -/
def fitPar (n : ℕ) (cols : List (List ℚ)) (ε : ℚ) : List (List (ℚ × ℚ)) :=
  runParallel n (fun _ c => fitPoints c ε) cols

/-- transform's parallel fan-out over indexed columns with n_jobs = n
(line 114); a missing interp_func_[i] is an IndexError inside the task. -/
def transformPar (n : ℕ) (M : ErfModel) (fs : List (List (ℚ × ℚ)))
    (cols : List (List ℚ)) : List (Option (List ℚ)) :=
  runParallel n (fun i c => (fs[i]?).map fun pts => c.map (transform1 M pts)) cols

/-- inverse_transform's parallel fan-out over indexed columns with n_jobs = n
(line 134). -/
def inversePar (n : ℕ) (M : ErfModel) (fs : List (List (ℚ × ℚ)))
    (cols : List (List ℚ)) : List (Option (List ℚ)) :=
  runParallel n (fun i c => (fs[i]?).map fun pts => c.map (inverseTransform1 M pts)) cols

/- ---------- helper lemmas: deduplication ---------- -/

theorem mem_dropDupAux {v : ℚ} :
    ∀ {seen l : List ℚ}, v ∈ dropDupAux seen l ↔ v ∈ l ∧ v ∉ seen := by
  intro seen l
  induction l generalizing seen with
  | nil => simp [dropDupAux]
  | cons a l ih =>
    by_cases h : a ∈ seen
    · simp only [dropDupAux, if_pos h, ih, List.mem_cons]
      constructor
      · rintro ⟨hv, hs⟩; exact ⟨Or.inr hv, hs⟩
      · rintro ⟨hv | hv, hs⟩
        · subst hv; exact absurd h hs
        · exact ⟨hv, hs⟩
    · simp only [dropDupAux, if_neg h, List.mem_cons, ih]
      constructor
      · rintro (rfl | ⟨hv, hs⟩)
        · exact ⟨Or.inl rfl, h⟩
        · exact ⟨Or.inr hv, fun hvs => hs (Or.inr hvs)⟩
      · rintro ⟨rfl | hv, hs⟩
        · exact Or.inl rfl
        · by_cases hva : v = a
          · exact Or.inl hva
          · exact Or.inr ⟨hv, fun h1 => h1.elim hva hs⟩

theorem mem_dropDuplicates {v : ℚ} {x : List ℚ} :
    v ∈ dropDuplicates x ↔ v ∈ x := by
  simp [dropDuplicates, mem_dropDupAux]

theorem nodup_dropDupAux : ∀ (seen l : List ℚ), (dropDupAux seen l).Nodup := by
  intro seen l
  induction l generalizing seen with
  | nil => simp [dropDupAux]
  | cons a l ih =>
    by_cases h : a ∈ seen
    · simpa [dropDupAux, if_pos h] using ih seen
    · simp only [dropDupAux, if_neg h, List.nodup_cons]
      refine ⟨fun hmem => ?_, ih _⟩
      exact (mem_dropDupAux.1 hmem).2 (List.mem_cons_self a seen)

theorem nodup_dropDuplicates (x : List ℚ) : (dropDuplicates x).Nodup :=
  nodup_dropDupAux [] x

theorem length_dropDupAux : ∀ (seen l : List ℚ),
    (dropDupAux seen l).length ≤ l.length := by
  intro seen l
  induction l generalizing seen with
  | nil => simp [dropDupAux]
  | cons a l ih =>
    by_cases h : a ∈ seen
    · simp only [dropDupAux, if_pos h, List.length_cons]
      exact le_trans (ih seen) (Nat.le_succ _)
    · simp only [dropDupAux, if_neg h, List.length_cons]
      exact Nat.succ_le_succ (ih _)

theorem length_dropDuplicates (x : List ℚ) :
    (dropDuplicates x).length ≤ x.length :=
  length_dropDupAux [] x

/- ---------- helper lemmas: maxNat ---------- -/

theorem le_maxNat {l : List ℕ} {x : ℕ} (h : x ∈ l) : x ≤ maxNat l := by
  induction l with
  | nil => cases h
  | cons a l ih =>
    rcases List.mem_cons.1 h with rfl | h'
    · exact le_max_left _ _
    · exact le_trans (ih h') (le_max_right _ _)

theorem maxNat_le {l : List ℕ} {n : ℕ} (h : ∀ x ∈ l, x ≤ n) : maxNat l ≤ n := by
  induction l with
  | nil => exact Nat.zero_le n
  | cons a l ih =>
    exact max_le (h a (List.mem_cons_self a l))
      (ih fun x hx => h x (List.mem_cons.2 (Or.inr hx)))

theorem maxNat_of_perm_range {l : List ℕ} {n : ℕ} (h : List.Perm l (List.range n))
    (hn : 1 ≤ n) : maxNat l = n - 1 := by
  refine le_antisymm (maxNat_le fun x hx => ?_) (le_maxNat ?_)
  · have := List.mem_range.1 (h.subset hx)
    omega
  · exact h.mem_iff.2 (List.mem_range.2 (by omega))

/- ---------- helper lemmas: countLt and countP ---------- -/

theorem countP_le_countP {α : Type} {p q : α → Bool} :
    ∀ {l : List α}, (∀ a ∈ l, p a = true → q a = true) →
      l.countP p ≤ l.countP q := by
  intro l
  induction l with
  | nil => intro _; simp
  | cons a l ih =>
    intro h
    have h' := ih fun b hb => h b (List.mem_cons.2 (Or.inr hb))
    by_cases hp : p a = true
    · have hq := h a (List.mem_cons_self a l) hp
      simp only [List.countP_cons, hp, hq, if_true]
      omega
    · by_cases hq : q a = true <;> simp [List.countP_cons, hp, hq] <;> omega

theorem countLt_le_length (u : List ℚ) (v : ℚ) : countLt u v ≤ u.length :=
  List.length_filter_le _ _

theorem countLt_lt_length {u : List ℚ} {v : ℚ} (h : v ∈ u) :
    countLt u v < u.length := by
  rcases List.append_of_mem h with ⟨s, t, rfl⟩
  simp only [countLt, List.filter_append, List.filter_cons, List.length_append,
    List.length_cons, decide_eq_true_eq, lt_irrefl, if_false]
  have hs := List.length_filter_le (fun a => decide (a < v)) s
  have ht := List.length_filter_le (fun a => decide (a < v)) t
  omega

theorem countLt_mono (u : List ℚ) {v w : ℚ} (hvw : v ≤ w) :
    countLt u v ≤ countLt u w := by
  simp only [countLt, ← List.countP_eq_length_filter]
  exact countP_le_countP fun a _ ha => by
    simp only [decide_eq_true_eq] at ha ⊢
    exact lt_of_lt_of_le ha hvw

theorem countLt_strict {u : List ℚ} {v w : ℚ} (hv : v ∈ u) (hvw : v < w) :
    countLt u v < countLt u w := by
  rcases List.append_of_mem hv with ⟨s, t, rfl⟩
  simp only [countLt, List.filter_append, List.filter_cons, List.length_append,
    List.length_cons, decide_eq_true_eq, lt_irrefl, if_false, hvw, if_true]
  have hs : (s.filter (fun a => decide (a < v))).length ≤
      (s.filter (fun a => decide (a < w))).length := by
    simp only [← List.countP_eq_length_filter]
    exact countP_le_countP fun a _ ha => by
      simp only [decide_eq_true_eq] at ha ⊢; exact lt_trans ha hvw
  have ht : (t.filter (fun a => decide (a < v))).length ≤
      (t.filter (fun a => decide (a < w))).length := by
    simp only [← List.countP_eq_length_filter]
    exact countP_le_countP fun a _ ha => by
      simp only [decide_eq_true_eq] at ha ⊢; exact lt_trans ha hvw
  omega

/- ---------- helper lemmas: small list utilities ---------- -/

theorem zip_self_map {α β : Type} (l : List α) (g : α → β) :
    l.zip (l.map g) = l.map fun a => (a, g a) := by
  induction l with
  | nil => rfl
  | cons a l ih => simp [ih]

theorem map_self_of_mem {α : Type} {l : List α} {f : α → α}
    (h : ∀ a ∈ l, f a = a) : l.map f = l := by
  induction l with
  | nil => rfl
  | cons a l ih =>
    simp only [List.map_cons, h a (List.mem_cons_self a l),
      ih fun b hb => h b (List.mem_cons.2 (Or.inr hb))]

/- ---------- helper lemmas: the argsort characterization ---------- -/

theorem eq_range_of_pairwise_lt {l : List ℕ} {n : ℕ}
    (hs : l.Pairwise (· < ·)) (hb : ∀ x ∈ l, x < n) (hl : l.length = n) :
    l = List.range n := by
  have hnd : l.Nodup := hs.imp Nat.ne_of_lt
  have hsub : l ⊆ List.range n := fun x hx => List.mem_range.2 (hb x hx)
  have hperm : List.Perm l (List.range n) :=
    (hnd.subperm hsub).perm_of_length_le (by simp [hl])
  haveI : IsAntisymm ℕ (· < ·) := ⟨fun a b h h' => absurd h' (Nat.lt_asymm h)⟩
  exact List.eq_of_perm_of_sorted hperm hs (List.pairwise_lt_range n)

theorem getD_countP_key {α : Type} [LinearOrder α] (key : ℕ → α) (d : ℕ) :
    ∀ s : List ℕ, s.Pairwise (fun i j => key i < key j) →
      ∀ k ∈ s, s.getD (s.countP fun j => decide (key j < key k)) d = k := by
  intro s
  induction s with
  | nil => intro _ k hk; cases hk
  | cons a t ih =>
    intro hp k hk
    have ha := List.pairwise_cons.1 hp
    rcases List.mem_cons.1 hk with rfl | hkt
    · have h0 : (t.countP fun j => decide (key j < key k)) = 0 :=
        List.countP_eq_zero.2 fun j hj => by
          simp only [decide_eq_true_eq]
          exact not_lt.2 (le_of_lt (ha.1 j hj))
      simp [List.countP_cons, h0]
    · have hak : key a < key k := ha.1 k hkt
      simp only [List.countP_cons, decide_eq_true_eq, hak, if_true,
        List.getD_cons_succ]
      exact ih ha.2 k hkt

theorem countP_range_key {α : Type} [LinearOrder α] [Inhabited α] :
    ∀ (l : List α) (v : α),
      ((List.range l.length).countP fun j => decide (l.getD j default < v)) =
        (l.filter fun a => decide (a < v)).length := by
  intro l
  induction l with
  | nil => intro v; simp
  | cons a t ih =>
    intro v
    rw [List.length_cons, List.range_succ_eq_map, List.countP_cons,
      List.countP_map]
    have hcomp : ((fun j => decide ((a :: t).getD j default < v)) ∘ Nat.succ) =
        fun j => decide (t.getD j default < v) := by
      funext j
      simp [List.getD_cons_succ]
    rw [hcomp, ih]
    by_cases hv : a < v <;> simp [List.filter_cons, hv]

theorem length_argsortBy {α : Type} [LinearOrder α] [Inhabited α] (l : List α) :
    (argsortBy l).length = l.length := by
  simp [argsortBy, List.length_insertionSort, List.length_range]

theorem perm_argsortBy_range {α : Type} [LinearOrder α] [Inhabited α]
    (l : List α) : List.Perm (argsortBy l) (List.range l.length) :=
  List.perm_insertionSort _ _

theorem mem_argsortBy_lt {α : Type} [LinearOrder α] [Inhabited α]
    {l : List α} {i : ℕ} (hi : i ∈ argsortBy l) : i < l.length :=
  List.mem_range.1 ((perm_argsortBy_range l).subset hi)

theorem nodup_argsortBy {α : Type} [LinearOrder α] [Inhabited α] (l : List α) :
    (argsortBy l).Nodup :=
  (perm_argsortBy_range l).nodup_iff.2 (List.nodup_range _)

theorem sorted_argsortBy {α : Type} [LinearOrder α] [Inhabited α] (l : List α) :
    (argsortBy l).Pairwise (keyLe l) :=
  List.sorted_insertionSort _ _

theorem pairwise_keyLt_argsortBy {α : Type} [LinearOrder α] [Inhabited α]
    {l : List α} (hl : l.Nodup) :
    (argsortBy l).Pairwise fun i j => l.getD i default < l.getD j default := by
  have h1 : (argsortBy l).Pairwise fun i j => keyLe l i j ∧ i ≠ j :=
    (sorted_argsortBy l).and (nodup_argsortBy l)
  refine List.Pairwise.imp_of_mem ?_ h1
  intro i j hi hj hr
  have hi' : i < l.length := mem_argsortBy_lt hi
  have hj' : j < l.length := mem_argsortBy_lt hj
  refine lt_of_le_of_ne hr.1 fun heq => hr.2 ?_
  rw [List.getD_eq_getElem l default hi', List.getD_eq_getElem l default hj']
    at heq
  exact (hl.getElem_inj_iff).1 heq

theorem rankOf_eq_countLt {u : List ℚ} (hu : u.Nodup) :
    rankOf u = u.map fun v => countLt u v := by
  have hσlen : (argsortBy u).length = u.length := length_argsortBy u
  have hσperm : List.Perm (argsortBy u) (List.range u.length) :=
    perm_argsortBy_range u
  have hσnodup : (argsortBy u).Nodup := nodup_argsortBy u
  have hσmemlt : ∀ i ∈ argsortBy u, i < u.length := fun _ hi => mem_argsortBy_lt hi
  have hσstrict := pairwise_keyLt_argsortBy hu
  have hτlen : (rankOf u).length = u.length := by
    rw [rankOf, length_argsortBy, hσlen]
  have hτperm : List.Perm (rankOf u) (List.range u.length) := by
    have h := perm_argsortBy_range (argsortBy u)
    rwa [hσlen] at h
  have hτmemlt : ∀ i ∈ rankOf u, i < u.length := fun i hi =>
    List.mem_range.1 (hτperm.subset hi)
  have hτstrict :
      (rankOf u).Pairwise fun i j =>
        (argsortBy u).getD i default < (argsortBy u).getD j default :=
    pairwise_keyLt_argsortBy hσnodup
  have hcomp :
      ((rankOf u).map fun i => (argsortBy u).getD i default) =
        List.range u.length := by
    apply eq_range_of_pairwise_lt
    · exact (List.pairwise_map).2 hτstrict
    · intro x hx
      rcases List.mem_map.1 hx with ⟨i, hi, rfl⟩
      have hi' : i < (argsortBy u).length := by
        rw [hσlen]; exact hτmemlt i hi
      rw [List.getD_eq_getElem _ default hi']
      exact hσmemlt _ (List.getElem_mem hi')
    · simp [hτlen]
  have hστ : ∀ k, k < u.length →
      (argsortBy u).getD ((rankOf u).getD k default) default = k := by
    intro k hk
    have hk1 : k < ((rankOf u).map fun i => (argsortBy u).getD i default).length := by
      simp [hτlen, hk]
    have h1 : ((rankOf u).map fun i => (argsortBy u).getD i default).getD k default
        = k := by
      rw [hcomp, List.getD_eq_getElem _ _ (by simp [hk]), List.getElem_range]
    rw [List.getD_eq_getElem _ _ hk1, List.getElem_map] at h1
    have hklen : k < (rankOf u).length := by rw [hτlen]; exact hk
    rw [List.getD_eq_getElem (rankOf u) default hklen]
    exact h1
  have hσc : ∀ k, k < u.length →
      (argsortBy u).getD (countLt u (u.getD k default)) default = k := by
    intro k hk
    have hkmem : k ∈ argsortBy u := hσperm.mem_iff.2 (List.mem_range.2 hk)
    have h2 := getD_countP_key (fun i => u.getD i default) default
      (argsortBy u) hσstrict k hkmem
    rw [hσperm.countP_eq, countP_range_key u (u.getD k default)] at h2
    exact h2
  have hσinj : ∀ a b, a < u.length → b < u.length →
      (argsortBy u).getD a default = (argsortBy u).getD b default → a = b := by
    intro a b ha hb hab
    have ha' : a < (argsortBy u).length := by rw [hσlen]; exact ha
    have hb' : b < (argsortBy u).length := by rw [hσlen]; exact hb
    rw [List.getD_eq_getElem _ default ha', List.getD_eq_getElem _ default hb']
      at hab
    exact (hσnodup.getElem_inj_iff).1 hab
  have hpt : ∀ k, k < u.length →
      (rankOf u).getD k default = countLt u (u.getD k default) := by
    intro k hk
    have hm1 : (rankOf u).getD k default ∈ rankOf u := by
      rw [List.getD_eq_getElem _ _ (by rw [hτlen]; exact hk)]
      exact List.getElem_mem _
    have hm2 : u.getD k default ∈ u := by
      rw [List.getD_eq_getElem _ default hk]
      exact List.getElem_mem hk
    exact hσinj _ _ (hτmemlt _ hm1) (countLt_lt_length hm2)
      (by rw [hστ k hk, hσc k hk])
  apply List.ext_getElem (by simp [hτlen])
  intro i h1 h2
  have hi : i < u.length := by rw [hτlen] at h1; exact h1
  have h3 := hpt i hi
  rw [List.getD_eq_getElem _ default h1,
    List.getD_eq_getElem u default hi] at h3
  rw [List.getElem_map]
  exact h3

/- ---------- helper lemmas: interpolation ---------- -/

theorem interpSeg_left (x0 y0 x1 y1 : ℚ) : interpSeg x0 y0 x1 y1 x0 = y0 := by
  simp [interpSeg]

theorem interpSeg_right {x0 x1 : ℚ} (y0 y1 : ℚ) (h : x0 ≠ x1) :
    interpSeg x0 y0 x1 y1 x1 = y1 := by
  have h' : x1 - x0 ≠ 0 := sub_ne_zero.2 (Ne.symm h)
  rw [interpSeg]
  field_simp

theorem interpEval_mem :
    ∀ pts : List (ℚ × ℚ), (pts.Pairwise fun p q => p.1 < q.1) →
      ∀ p ∈ pts, interpEval pts p.1 = p.2 := by
  intro pts
  induction pts with
  | nil => intro _ p hp; cases hp
  | cons a l ih =>
    cases l with
    | nil =>
      intro _ p hp
      rcases List.mem_cons.1 hp with rfl | h
      · rfl
      · cases h
    | cons b m =>
      intro hp p hmem
      have hab : a.1 < b.1 := (List.pairwise_cons.1 hp).1 b (List.mem_cons_self b m)
      rcases List.mem_cons.1 hmem with rfl | hmem1
      · simp only [interpEval]
        rw [if_pos (Or.inl (le_of_lt hab))]
        exact interpSeg_left _ _ _ _
      · rcases List.mem_cons.1 hmem1 with rfl | hmem2
        · simp only [interpEval]
          rw [if_pos (Or.inl (le_refl p.1))]
          exact interpSeg_right _ _ (ne_of_lt hab)
        · have hbp : b.1 < p.1 :=
            (List.pairwise_cons.1 (List.pairwise_cons.1 hp).2).1 p hmem2
          have hc : ¬(p.1 ≤ b.1 ∨ m = []) := by
            rintro (h | h)
            · exact absurd hbp (not_lt.2 h)
            · exact List.ne_nil_of_mem hmem2 h
          simp only [interpEval]
          rw [if_neg hc]
          exact ih (List.pairwise_cons.1 hp).2 p hmem1

theorem interpEval_beyond {t : ℚ} :
    ∀ pts : List (ℚ × ℚ), (∀ p ∈ pts, p.1 < t) →
      interpEval pts t = lastSeg pts t := by
  intro pts
  induction pts with
  | nil => intro _; rfl
  | cons a l ih =>
    cases l with
    | nil => intro _; rfl
    | cons b m =>
      intro hb
      cases m with
      | nil => simp [interpEval, lastSeg]
      | cons c ms =>
        have hb1 : b.1 < t := hb b (by simp)
        have hc : ¬(t ≤ b.1 ∨ (c :: ms) = []) := by
          rintro (h | h)
          · exact absurd hb1 (not_lt.2 h)
          · exact List.cons_ne_nil _ _ h
        simp only [interpEval]
        rw [if_neg hc]
        have hstep : lastSeg (a :: b :: c :: ms) t = lastSeg (b :: c :: ms) t := rfl
        rw [hstep]
        exact ih fun p hp => hb p (List.mem_cons.2 (Or.inr hp))

theorem interpEval_below {t : ℚ} {a b : ℚ × ℚ} {m : List (ℚ × ℚ)}
    (h : t ≤ b.1) : interpEval (a :: b :: m) t = firstSeg (a :: b :: m) t := by
  simp only [interpEval, firstSeg]
  rw [if_pos (Or.inl h)]

/- ---------- helper lemmas: structure of the fitted control points ---------- -/

theorem length_rankOf (u : List ℚ) : (rankOf u).length = u.length := by
  rw [rankOf, length_argsortBy, length_argsortBy]

theorem maxNat_rankOf {u : List ℚ} (hu : u ≠ []) :
    maxNat (rankOf u) = u.length - 1 := by
  have hperm : List.Perm (rankOf u) (List.range u.length) := by
    have h := perm_argsortBy_range (argsortBy u)
    rwa [length_argsortBy] at h
  exact maxNat_of_perm_range hperm (List.length_pos.2 hu)

theorem scaledRank_eq {u : List ℚ} (hu : u.Nodup) (ε : ℚ) :
    scaledRank (rankOf u) ε = u.map (quantileOf u ε) := by
  have hqf : u.map (quantileOf u ε) = u.map fun v =>
      clipQ (unclippedQ (maxNat (rankOf u)) ε (countLt u v))
        (-(bound ε)) (bound ε) := rfl
  rw [hqf, scaledRank, rankOf_eq_countLt hu, List.map_map]
  rfl

theorem fitPoints_eq (x : List ℚ) (ε : ℚ) :
    fitPoints x ε =
      sortPairs ((dropDuplicates x).map fun v =>
        (v, quantileOf (dropDuplicates x) ε v)) := by
  rw [fitPoints, scaledRank_eq (nodup_dropDuplicates x), zip_self_map]

theorem fitPoints_perm (x : List ℚ) (ε : ℚ) :
    List.Perm (fitPoints x ε)
      ((dropDuplicates x).map fun v => (v, quantileOf (dropDuplicates x) ε v)) := by
  rw [fitPoints_eq]
  exact List.perm_insertionSort _ _

theorem mem_fitPoints {x : List ℚ} {ε : ℚ} {p : ℚ × ℚ} :
    p ∈ fitPoints x ε ↔
      ∃ v ∈ dropDuplicates x, p = (v, quantileOf (dropDuplicates x) ε v) := by
  rw [(fitPoints_perm x ε).mem_iff, List.mem_map]
  constructor
  · rintro ⟨v, hv, rfl⟩; exact ⟨v, hv, rfl⟩
  · rintro ⟨v, hv, rfl⟩; exact ⟨v, hv, rfl⟩

theorem fitPoints_sorted (x : List ℚ) (ε : ℚ) :
    (fitPoints x ε).Pairwise pairLe :=
  List.sorted_insertionSort _ _

theorem fitPoints_fst_perm (x : List ℚ) (ε : ℚ) :
    List.Perm ((fitPoints x ε).map Prod.fst) (dropDuplicates x) := by
  have h := (fitPoints_perm x ε).map Prod.fst
  rw [List.map_map] at h
  have h2 : ((dropDuplicates x).map
      (Prod.fst ∘ fun v => (v, quantileOf (dropDuplicates x) ε v))) =
      dropDuplicates x := by
    rw [show (Prod.fst ∘ fun v => (v, quantileOf (dropDuplicates x) ε v)) = id
      from rfl, List.map_id]
  rwa [h2] at h

theorem fitPoints_fst_nodup (x : List ℚ) (ε : ℚ) :
    ((fitPoints x ε).map Prod.fst).Nodup :=
  (fitPoints_fst_perm x ε).nodup_iff.2 (nodup_dropDuplicates x)

theorem fitPoints_pairwise_fst (x : List ℚ) (ε : ℚ) :
    (fitPoints x ε).Pairwise fun p q => p.1 < q.1 := by
  have h1 : (fitPoints x ε).Pairwise fun p q => pairLe p q ∧ p.1 ≠ q.1 :=
    (fitPoints_sorted x ε).and ((List.pairwise_map).1 (fitPoints_fst_nodup x ε))
  exact h1.imp fun h => lt_of_le_of_ne h.1 h.2

theorem length_fitPoints (x : List ℚ) (ε : ℚ) :
    (fitPoints x ε).length = (dropDuplicates x).length := by
  rw [fitPoints_eq]
  simp [sortPairs, List.length_insertionSort]

/- ---------- helper lemmas: the quantile map ---------- -/

theorem bound_pos {ε : ℚ} (hε1 : ε < 1) : 0 < bound ε := by
  unfold bound; linarith

theorem bound_lt_one {ε : ℚ} (hε0 : 0 < ε) : bound ε < 1 := by
  unfold bound; linarith

theorem factor_pos {u : List ℚ} (hu2 : 2 ≤ u.length) {ε : ℚ} (hε1 : ε < 1) :
    0 < factor (maxNat (rankOf u)) ε := by
  have hne : u ≠ [] := by
    intro h; rw [h] at hu2; simp at hu2
  have hM : maxNat (rankOf u) = u.length - 1 := maxNat_rankOf hne
  have hM1 : 1 ≤ maxNat (rankOf u) := by omega
  have hcast : (1 : ℚ) ≤ (maxNat (rankOf u) : ℚ) := by exact_mod_cast hM1
  unfold factor
  have hb := bound_pos hε1
  positivity

theorem unclippedQ_nonneg_shift {M : ℕ} {ε : ℚ} (hf : 0 < factor M ε) (r : ℕ) :
    -(bound ε) ≤ unclippedQ M ε r := by
  unfold unclippedQ
  have : 0 ≤ (r : ℚ) / factor M ε :=
    div_nonneg (Nat.cast_nonneg r) (le_of_lt hf)
  linarith

theorem unclippedQ_strict {M : ℕ} {ε : ℚ} (hf : 0 < factor M ε) {r s : ℕ}
    (hrs : r < s) : unclippedQ M ε r < unclippedQ M ε s := by
  unfold unclippedQ
  have hc : (r : ℚ) < (s : ℚ) := by exact_mod_cast hrs
  have := (div_lt_div_iff_of_pos_right hf).2 hc
  linarith

theorem quantileOf_mem_Icc (u : List ℚ) {ε : ℚ} (v : ℚ) (hε1 : ε < 1) :
    -(bound ε) ≤ quantileOf u ε v ∧ quantileOf u ε v ≤ bound ε := by
  have hb := le_of_lt (bound_pos hε1)
  unfold quantileOf clipQ
  refine ⟨le_min (le_trans ?_ (le_max_right _ _)) (by linarith), min_le_right _ _⟩
  exact le_refl _

theorem quantileOf_strict {x : List ℚ} {ε v w : ℚ}
    (hu2 : 2 ≤ (dropDuplicates x).length) (hε1 : ε < 1)
    (htop : noTopClip x ε) (hv : v ∈ dropDuplicates x)
    (hw : w ∈ dropDuplicates x) (hvw : v < w) :
    quantileOf (dropDuplicates x) ε v < quantileOf (dropDuplicates x) ε w := by
  have hne : dropDuplicates x ≠ [] := by
    intro h; rw [h] at hu2; simp at hu2
  have hf : 0 < factor (maxNat (rankOf (dropDuplicates x))) ε := factor_pos hu2 hε1
  have hrank : countLt (dropDuplicates x) v < countLt (dropDuplicates x) w :=
    countLt_strict hv hvw
  have hM : maxNat (rankOf (dropDuplicates x)) = (dropDuplicates x).length - 1 :=
    maxNat_rankOf hne
  have hwlt : countLt (dropDuplicates x) w < (dropDuplicates x).length :=
    countLt_lt_length hw
  have hvM : countLt (dropDuplicates x) v < maxNat (rankOf (dropDuplicates x)) := by
    omega
  have hav : unclippedQ (maxNat (rankOf (dropDuplicates x))) ε
      (countLt (dropDuplicates x) v) < bound ε := htop _ hvM
  have hgev := unclippedQ_nonneg_shift hf (countLt (dropDuplicates x) v)
  have hgew := unclippedQ_nonneg_shift hf (countLt (dropDuplicates x) w)
  have hlt := unclippedQ_strict hf hrank
  have hclipv : quantileOf (dropDuplicates x) ε v =
      unclippedQ (maxNat (rankOf (dropDuplicates x))) ε
        (countLt (dropDuplicates x) v) := by
    unfold quantileOf clipQ
    rw [max_eq_left hgev]
    exact min_eq_left (le_of_lt hav)
  have hclipw : quantileOf (dropDuplicates x) ε w =
      min (unclippedQ (maxNat (rankOf (dropDuplicates x))) ε
        (countLt (dropDuplicates x) w)) (bound ε) := by
    unfold quantileOf clipQ
    rw [max_eq_left hgew]
  rw [hclipv, hclipw]
  exact lt_min hlt hav

theorem quantileOf_mono {x : List ℚ} {ε v w : ℚ}
    (hu2 : 2 ≤ (dropDuplicates x).length) (hε1 : ε < 1) (hvw : v ≤ w) :
    quantileOf (dropDuplicates x) ε v ≤ quantileOf (dropDuplicates x) ε w := by
  have hf : 0 < factor (maxNat (rankOf (dropDuplicates x))) ε := factor_pos hu2 hε1
  have hrank : countLt (dropDuplicates x) v ≤ countLt (dropDuplicates x) w :=
    countLt_mono _ hvw
  have hcast : (countLt (dropDuplicates x) v : ℚ) ≤ countLt (dropDuplicates x) w := by
    exact_mod_cast hrank
  have hdiv : (countLt (dropDuplicates x) v : ℚ) /
        factor (maxNat (rankOf (dropDuplicates x))) ε ≤
      (countLt (dropDuplicates x) w : ℚ) /
        factor (maxNat (rankOf (dropDuplicates x))) ε :=
    (div_le_div_iff_of_pos_right hf).2 hcast
  unfold quantileOf clipQ unclippedQ
  exact min_le_min (max_le_max (by linarith) (le_refl _)) (le_refl _)

/- ---------- helper lemmas: the inverse interpolant ---------- -/

theorem invPoints_eq_swap {pts : List (ℚ × ℚ)}
    (h : pts.Pairwise fun p q => p.2 < q.2) :
    invPoints pts = pts.map Prod.swap := by
  unfold invPoints sortPairs
  apply List.Sorted.insertionSort_eq
  exact (List.pairwise_map).2 (h.imp fun h' => le_of_lt h')

theorem roundTrip_core {x : List ℚ} {ε : ℚ} (M : ErfModel) (hε0 : 0 < ε)
    (hε1 : ε < 1) (hu2 : 2 ≤ (dropDuplicates x).length) (htop : noTopClip x ε)
    {v : ℚ} (hv : v ∈ x) :
    inverseTransform1 M (fitPoints x ε) (transform1 M (fitPoints x ε) v) = v := by
  have hvu : v ∈ dropDuplicates x := mem_dropDuplicates.2 hv
  have hmem : (v, quantileOf (dropDuplicates x) ε v) ∈ fitPoints x ε :=
    mem_fitPoints.2 ⟨v, hvu, rfl⟩
  have hfst := fitPoints_pairwise_fst x ε
  have heval : interpEval (fitPoints x ε) v = quantileOf (dropDuplicates x) ε v :=
    interpEval_mem (fitPoints x ε) hfst _ hmem
  have hsnd : (fitPoints x ε).Pairwise fun p q => p.2 < q.2 := by
    refine List.Pairwise.imp_of_mem ?_ hfst
    intro p q hp hq hlt
    rcases mem_fitPoints.1 hp with ⟨a, ha, rfl⟩
    rcases mem_fitPoints.1 hq with ⟨b, hb, rfl⟩
    exact quantileOf_strict hu2 hε1 htop ha hb hlt
  have hswap : invPoints (fitPoints x ε) = (fitPoints x ε).map Prod.swap :=
    invPoints_eq_swap hsnd
  have hswapfst : ((fitPoints x ε).map Prod.swap).Pairwise fun p q => p.1 < q.1 :=
    (List.pairwise_map).2 hsnd
  have hq := quantileOf_mem_Icc (dropDuplicates x) (ε := ε) v hε1
  have hql : (-1 : ℚ) < quantileOf (dropDuplicates x) ε v := by
    have : (-1 : ℚ) < -(bound ε) := by unfold bound; linarith
    linarith [hq.1]
  have hqr : quantileOf (dropDuplicates x) ε v < 1 := by
    have := bound_lt_one hε0
    linarith [hq.2]
  unfold inverseTransform1 transform1
  rw [heval, M.left_inv _ hql hqr, hswap]
  have hmem2 : (quantileOf (dropDuplicates x) ε v, v) ∈
      (fitPoints x ε).map Prod.swap :=
    List.mem_map.2 ⟨_, hmem, rfl⟩
  exact interpEval_mem _ hswapfst _ hmem2

/- ---------- helper lemmas: matrix-level transform and inverse ---------- -/

theorem transformCols_fitAll (M : ErfModel) (ε : ℚ) :
    ∀ (cs pre : List (List ℚ)),
      transformCols M (fitAll (pre ++ cs) ε) pre.length cs =
        Except.ok (cs.map fun c => c.map (transform1 M (fitPoints c ε))) := by
  intro cs
  induction cs with
  | nil => intro pre; rfl
  | cons c cs ih =>
    intro pre
    have hget : (fitAll (pre ++ c :: cs) ε)[pre.length]? = some (fitPoints c ε) := by
      unfold fitAll
      rw [List.getElem?_map, List.getElem?_append_right (le_refl pre.length)]
      simp
    simp only [transformCols, hget]
    have happ : pre ++ c :: cs = (pre ++ [c]) ++ cs := by simp
    have hlen : pre.length + 1 = (pre ++ [c]).length := by simp
    rw [happ, hlen, ih (pre ++ [c])]
    rfl

theorem inverseCols_paired (M : ErfModel) (ε : ℚ) :
    ∀ (cs cs' pre : List (List ℚ)), cs'.length = cs.length →
      inverseCols M (fitAll (pre ++ cs) ε) pre.length cs' =
        Except.ok ((cs.zip cs').map fun pc =>
          pc.2.map (inverseTransform1 M (fitPoints pc.1 ε))) := by
  intro cs
  induction cs with
  | nil =>
    intro cs' pre h
    have h0 : cs' = [] := List.length_eq_zero.1 h
    subst h0; rfl
  | cons c cs ih =>
    intro cs' pre h
    cases cs' with
    | nil => simp at h
    | cons c' cs' =>
      have hget : (fitAll (pre ++ c :: cs) ε)[pre.length]? = some (fitPoints c ε) := by
        unfold fitAll
        rw [List.getElem?_map, List.getElem?_append_right (le_refl pre.length)]
        simp
      simp only [inverseCols, hget]
      have happ : pre ++ c :: cs = (pre ++ [c]) ++ cs := by simp
      have hlen : pre.length + 1 = (pre ++ [c]).length := by simp
      rw [happ, hlen, ih cs' (pre ++ [c]) (by simpa using h)]
      rfl

theorem roundTripMat_eq (M : ErfModel) (cols : List (List ℚ)) (ε : ℚ)
    (hε0 : 0 < ε) (hε1 : ε < 1)
    (hcols : ∀ c ∈ cols, 2 ≤ (dropDuplicates c).length ∧ noTopClip c ε) :
    roundTripMat M cols ε = Except.ok cols := by
  unfold roundTripMat
  have h1 := transformCols_fitAll M ε cols []
  simp only [List.nil_append, List.length_nil] at h1
  rw [h1]
  show inverseCols M (fitAll cols ε) 0
      (cols.map fun c => c.map (transform1 M (fitPoints c ε))) = Except.ok cols
  have h2 := inverseCols_paired M ε cols
    (cols.map fun c => c.map (transform1 M (fitPoints c ε))) [] (by simp)
  simp only [List.nil_append, List.length_nil] at h2
  rw [h2]
  congr 1
  rw [zip_self_map, List.map_map]
  apply map_self_of_mem
  intro c hc
  show ((c.map (transform1 M (fitPoints c ε))).map
    (inverseTransform1 M (fitPoints c ε))) = c
  rw [List.map_map]
  apply map_self_of_mem
  intro v hv
  exact roundTrip_core M hε0 hε1 (hcols c hc).1 (hcols c hc).2 hv

theorem transformCols_err (M : ErfModel) (fs : List (List (ℚ × ℚ))) :
    ∀ (cs : List (List ℚ)) (i : ℕ), i ≤ fs.length → fs.length < i + cs.length →
      transformCols M fs i cs = Except.error ScalerErr.columnOutOfRange := by
  intro cs
  induction cs with
  | nil => intro i hi hlt; simp at hlt; omega
  | cons c cs ih =>
    intro i hi hlt
    by_cases hcase : i < fs.length
    · simp only [transformCols, List.getElem?_eq_getElem hcase]
      rw [ih (i + 1) (by omega) (by simp at hlt ⊢; omega)]
      rfl
    · have hnone : fs[i]? = none := List.getElem?_eq_none (by omega)
      simp only [transformCols, hnone]

theorem transformCols_ok (M : ErfModel) (fs : List (List (ℚ × ℚ))) :
    ∀ (cs : List (List ℚ)) (i : ℕ), i + cs.length ≤ fs.length →
      ∃ T, transformCols M fs i cs = Except.ok T ∧ T.length = cs.length := by
  intro cs
  induction cs with
  | nil => intro i _; exact ⟨[], rfl, rfl⟩
  | cons c cs ih =>
    intro i hle
    have hcase : i < fs.length := by simp at hle; omega
    obtain ⟨T, hT, hTlen⟩ := ih (i + 1) (by simp at hle ⊢; omega)
    refine ⟨c.map (transform1 M fs[i]) :: T, ?_, by simp [hTlen]⟩
    simp only [transformCols, List.getElem?_eq_getElem hcase]
    rw [hT]
    rfl

theorem inverseCols_err (M : ErfModel) (fs : List (List (ℚ × ℚ))) :
    ∀ (cs : List (List ℚ)) (i : ℕ), i ≤ fs.length → fs.length < i + cs.length →
      inverseCols M fs i cs = Except.error ScalerErr.columnOutOfRange := by
  intro cs
  induction cs with
  | nil => intro i hi hlt; simp at hlt; omega
  | cons c cs ih =>
    intro i hi hlt
    by_cases hcase : i < fs.length
    · simp only [inverseCols, List.getElem?_eq_getElem hcase]
      rw [ih (i + 1) (by omega) (by simp at hlt ⊢; omega)]
      rfl
    · have hnone : fs[i]? = none := List.getElem?_eq_none (by omega)
      simp only [inverseCols, hnone]

theorem inverseCols_ok (M : ErfModel) (fs : List (List (ℚ × ℚ))) :
    ∀ (cs : List (List ℚ)) (i : ℕ), i + cs.length ≤ fs.length →
      ∃ T, inverseCols M fs i cs = Except.ok T ∧ T.length = cs.length := by
  intro cs
  induction cs with
  | nil => intro i _; exact ⟨[], rfl, rfl⟩
  | cons c cs ih =>
    intro i hle
    have hcase : i < fs.length := by simp at hle; omega
    obtain ⟨T, hT, hTlen⟩ := ih (i + 1) (by simp at hle ⊢; omega)
    refine ⟨c.map (inverseTransform1 M fs[i]) :: T, ?_, by simp [hTlen]⟩
    simp only [inverseCols, List.getElem?_eq_getElem hcase]
    rw [hT]
    rfl

/- ---------- helper lemmas: input validation ---------- -/

theorem checkCol_split (c : List FQ) :
    checkCol c = Except.error ScalerErr.nonFinite ∨
      ∃ l, checkCol c = Except.ok l := by
  induction c with
  | nil => exact Or.inr ⟨[], rfl⟩
  | cons a c ih =>
    cases a with
    | fin q =>
      rcases ih with h | ⟨l, hl⟩
      · left; simp only [checkCol, h]; rfl
      · right; exact ⟨q :: l, by simp only [checkCol, hl]; rfl⟩
    | pinf => left; rfl
    | ninf => left; rfl
    | nan => left; rfl

theorem checkCol_err {c : List FQ} (h : ∃ v ∈ c, v.isFinite = false) :
    checkCol c = Except.error ScalerErr.nonFinite := by
  induction c with
  | nil => rcases h with ⟨v, hv, _⟩; cases hv
  | cons a c ih =>
    rcases h with ⟨v, hv, hnf⟩
    rcases List.mem_cons.1 hv with rfl | hv'
    · cases v with
      | fin q => simp [FQ.isFinite] at hnf
      | pinf => rfl
      | ninf => rfl
      | nan => rfl
    · cases a with
      | fin q => simp only [checkCol, ih ⟨v, hv', hnf⟩]; rfl
      | pinf => rfl
      | ninf => rfl
      | nan => rfl

theorem checkArray_err {X : List (List FQ)} (h : hasNonFinite X) :
    checkArray X = Except.error ScalerErr.nonFinite := by
  induction X with
  | nil => rcases h with ⟨c, hc, _⟩; cases hc
  | cons c cs ih =>
    rcases h with ⟨c', hc', hv⟩
    rcases List.mem_cons.1 hc' with rfl | hc''
    · simp only [checkArray, checkCol_err hv]
    · rcases checkCol_split c with h1 | ⟨l, h1⟩
      · simp only [checkArray, h1]
      · simp only [checkArray, h1, ih ⟨c', hc'', hv⟩]
        rfl

/- ---------- helper lemmas: the parallel fan-out ---------- -/

theorem catLists_chunksOfF {α : Type} (k : ℕ) :
    ∀ (fuel : ℕ) (l : List α), l.length ≤ fuel →
      catLists (chunksOfF k fuel l) = l := by
  intro fuel
  induction fuel with
  | zero =>
    intro l h
    cases l with
    | nil => rfl
    | cons a l => simp at h
  | succ fuel ih =>
    intro l h
    cases l with
    | nil => rfl
    | cons a l =>
      simp only [chunksOfF, catLists]
      rw [ih _ (by simp [List.length_drop]; simp at h; omega)]
      simp [List.take_append_drop]

theorem catLists_chunksOf {α : Type} (k : ℕ) (l : List α) :
    catLists (chunksOf k l) = l :=
  catLists_chunksOfF k l.length l (le_refl _)

theorem catLists_map {α β : Type} (f : α → β) :
    ∀ L : List (List α), catLists (L.map (List.map f)) = (catLists L).map f := by
  intro L
  induction L with
  | nil => rfl
  | cons l L ih => simp only [List.map_cons, catLists, ih, List.map_append]

theorem withIdx_fst_ge {α : Type} :
    ∀ (l : List α) (i : ℕ) (p : ℕ × α), p ∈ withIdx i l → i ≤ p.1 := by
  intro l
  induction l with
  | nil => intro i p hp; cases hp
  | cons a l ih =>
    intro i p hp
    rcases List.mem_cons.1 hp with rfl | hp'
    · exact le_refl _
    · exact le_trans (Nat.le_succ i) (ih (i + 1) p hp')

theorem withIdx_pairwise {α : Type} :
    ∀ (l : List α) (i : ℕ), (withIdx i l).Pairwise fun p q => p.1 < q.1 := by
  intro l
  induction l with
  | nil => intro i; exact List.Pairwise.nil
  | cons a l ih =>
    intro i
    refine List.Pairwise.cons ?_ (ih (i + 1))
    intro q hq
    have := withIdx_fst_ge l (i + 1) q hq
    omega

theorem withIdx_map_val {α β : Type} (f : α → β) :
    ∀ (l : List α) (i : ℕ), (withIdx i l).map (fun p => f p.2) = l.map f := by
  intro l
  induction l with
  | nil => intro i; rfl
  | cons a l ih => intro i; simp only [withIdx, List.map_cons, ih]

theorem runParallel_eq {α β : Type} (n : ℕ) (f : ℕ → α → β) (l : List α) :
    runParallel n f l = (withIdx 0 l).map fun p => f p.1 p.2 := by
  unfold runParallel
  dsimp only
  rw [catLists_map, catLists_chunksOf]
  have hpw : ((withIdx 0 l).map fun p => (p.1, f p.1 p.2)).Pairwise
      fun p q => p.1 < q.1 :=
    (List.pairwise_map).2 (withIdx_pairwise l 0)
  have hsorted : ((withIdx 0 l).map fun p => (p.1, f p.1 p.2)).Pairwise
      (pairLeN (β := β)) :=
    hpw.imp fun h => le_of_lt h
  rw [sortByIdx, List.Sorted.insertionSort_eq hsorted, List.map_map]
  rfl

theorem runParallel_degree_indep {α β : Type} (n : ℕ) (f : ℕ → α → β)
    (l : List α) : runParallel n f l = runParallel 1 f l := by
  rw [runParallel_eq, runParallel_eq]

/- ---------- remaining small helpers ---------- -/

theorem pairwise_of_length_le_one {γ : Type} {R : γ → γ → Prop} :
    ∀ {l : List γ}, l.length ≤ 1 → l.Pairwise R := by
  intro l h
  cases l with
  | nil => exact List.Pairwise.nil
  | cons a t =>
    cases t with
    | nil => simp
    | cons b m => simp at h

theorem interpEval_below_all {t : ℚ} :
    ∀ pts : List (ℚ × ℚ), 2 ≤ pts.length → (∀ p ∈ pts, t < p.1) →
      interpEval pts t = firstSeg pts t := by
  intro pts h2 hall
  cases pts with
  | nil => simp at h2
  | cons a l =>
    cases l with
    | nil => simp at h2
    | cons b m => exact interpEval_below (le_of_lt (hall b (by simp)))

theorem transformM_fst (M : ErfModel) (s : Scaler) (X : List (List FQ)) :
    (transformM M s X).1 = s := by
  unfold transformM
  split
  · rfl
  · split <;> rfl

theorem inverseM_fst (M : ErfModel) (s : Scaler) (X : List (List FQ)) :
    (inverseM M s X).1 = s := by
  unfold inverseM
  split
  · rfl
  · split <;> rfl

/- ---------- the claims ---------- -/

/-- C1 (corrected).  The round trip inverse_transform(transform(X)) over the
fit-time data reproduces every fit-time value, for any number of columns in
any order, PROVIDED no rank other than the maximal one clips at +bound
(noTopClip; with 0 < epsilon < 1 and at least two distinct values per
column).  As stated, without that proviso, the claim is false: see the
counterexample, where the clip of line 97 sends the two largest ranks to the
same quantile +bound, so the maximal fit-time value is not recovered. -/
theorem c1_round_trip_amended (M : ErfModel) (cols : List (List ℚ)) (ε : ℚ)
    (hε0 : 0 < ε) (hε1 : ε < 1)
    (hcols : ∀ c ∈ cols, 2 ≤ (dropDuplicates c).length ∧ noTopClip c ε) :
    roundTripMat M cols ε = Except.ok cols :=
  roundTripMat_eq M cols ε hε0 hε1 hcols

/-- C1, counterexample to the claim as stated: the single feature [0, 1, 2]
with epsilon = 1/2 (an instance with at least 2 distinct finite values) round
trips to [0, 1, 1]: the fit-time value 2 is reproduced as 1, an error of 1,
not a floating-point tolerance. -/
theorem c1_round_trip_cx :
    roundTripMat erfId [[0, 1, 2]] (1/2) = Except.ok [[0, 1, 1]] ∧
      ([[0, 1, 1]] : List (List ℚ)) ≠ [[0, 1, 2]] :=
  ⟨rfl, by decide⟩

/-- C1, witness: the amended theorem applied to a concrete two-column-free
instance with the default epsilon. -/
theorem c1_round_trip_witness :
    roundTripMat erfId [[1, 2, 3, 4, 5]] (1/10000) =
      Except.ok [[1, 2, 3, 4, 5]] :=
  c1_round_trip_amended erfId [[1, 2, 3, 4, 5]] (1/10000) (by decide) (by decide)
    (by decide)

/-- C2 (corrected).  The fitted quantile sequence is always non-decreasing in
the raw value; it is STRICTLY increasing (hence invertible) only under the
additional condition noTopClip, i.e. when no rank below the maximum reaches
+bound before clipping.  The claim as stated, for every m and every epsilon
in (0,1), is false: see the counterexample. -/
theorem c2_monotone_amended (x : List ℚ) (ε : ℚ) (hε0 : 0 < ε) (hε1 : ε < 1) :
    ((fitPoints x ε).Pairwise fun p q => p.2 ≤ q.2) ∧
      (2 ≤ (dropDuplicates x).length → noTopClip x ε →
        (fitPoints x ε).Pairwise fun p q => p.2 < q.2) := by
  constructor
  · by_cases h2 : 2 ≤ (dropDuplicates x).length
    · refine List.Pairwise.imp_of_mem ?_ (fitPoints_pairwise_fst x ε)
      intro p q hp hq hlt
      rcases mem_fitPoints.1 hp with ⟨a, _, rfl⟩
      rcases mem_fitPoints.1 hq with ⟨b, _, rfl⟩
      exact quantileOf_mono h2 hε1 (le_of_lt hlt)
    · exact pairwise_of_length_le_one (by rw [length_fitPoints]; omega)
  · intro h2 htop
    refine List.Pairwise.imp_of_mem ?_ (fitPoints_pairwise_fst x ε)
    intro p q hp hq hlt
    rcases mem_fitPoints.1 hp with ⟨a, ha, rfl⟩
    rcases mem_fitPoints.1 hq with ⟨b, hb, rfl⟩
    exact quantileOf_strict h2 hε1 htop ha hb hlt

/-- C2, counterexample to strict monotonicity as stated: m = 3 unique values
with epsilon = 1/2 produce quantiles (-1/2, 1/2, 1/2); the two top control
points tie at +bound, so the retained points are not strictly monotone and
the mapping is not invertible. -/
theorem c2_monotone_cx :
    fitPoints [0, 1, 2] (1/2) = [(0, -(1/2)), (1, 1/2), (2, 1/2)] ∧
      ¬ (fitPoints [0, 1, 2] (1/2)).Pairwise fun p q => p.2 < q.2 := by
  refine ⟨by decide, fun h => ?_⟩
  rw [(by decide : fitPoints [0, 1, 2] (1/2) =
    [((0 : ℚ), -(1/2)), (1, 1/2), (2, 1/2)])] at h
  have h1 := (List.pairwise_cons.1 (List.pairwise_cons.1 h).2).1
    ((2 : ℚ), (1/2 : ℚ)) (by simp)
  exact absurd h1 (by decide)

/-- C2, witness for the amended theorem at a concrete instance. -/
theorem c2_monotone_witness :
    ((fitPoints [1, 2, 3, 4, 5] (1/10000)).Pairwise fun p q => p.2 ≤ q.2) ∧
      (fitPoints [1, 2, 3, 4, 5] (1/10000)).Pairwise fun p q => p.2 < q.2 :=
  ⟨(c2_monotone_amended [1, 2, 3, 4, 5] (1/10000) (by decide) (by decide)).1,
   (c2_monotone_amended [1, 2, 3, 4, 5] (1/10000) (by decide) (by decide)).2
     (by decide) (by decide)⟩

/-- C3 (corrected).  The scaling step maps rank 0 exactly to -bound with the
clip a no-op there; but at rank max(r) the UNCLIPPED value 2/bound - bound
strictly exceeds +bound for every epsilon in (0,1) and every max rank >= 1,
and it is the clip that maps it to exactly +bound.  The claim that the clip
is a no-op at both true endpoints (the unclipped endpoint values already in
[-bound, bound]) is false: see the counterexample. -/
theorem c3_endpoints_amended (ε : ℚ) (Mr : ℕ) (hε0 : 0 < ε) (hε1 : ε < 1)
    (hMr : 1 ≤ Mr) :
    unclippedQ Mr ε 0 = -(bound ε) ∧
    clipQ (unclippedQ Mr ε 0) (-(bound ε)) (bound ε) = -(bound ε) ∧
    bound ε < unclippedQ Mr ε Mr ∧
    clipQ (unclippedQ Mr ε Mr) (-(bound ε)) (bound ε) = bound ε := by
  have hb0 := bound_pos hε1
  have hb1 := bound_lt_one hε0
  have hM0 : (0 : ℚ) < (Mr : ℚ) := by exact_mod_cast Nat.lt_of_lt_of_le Nat.zero_lt_one hMr
  have hzero : unclippedQ Mr ε 0 = -(bound ε) := by simp [unclippedQ]
  have htop : bound ε < unclippedQ Mr ε Mr := by
    unfold unclippedQ factor
    have hbne : bound ε ≠ 0 := ne_of_gt hb0
    have hMne : (Mr : ℚ) ≠ 0 := ne_of_gt hM0
    have hrw : (Mr : ℚ) / ((Mr : ℚ) / 2 * bound ε) = 2 / bound ε := by
      field_simp
      ring
    rw [hrw]
    have h3 : 2 * bound ε < 2 / bound ε := by
      rw [lt_div_iff₀ hb0]; nlinarith
    linarith
  refine ⟨hzero, ?_, htop, ?_⟩
  · rw [hzero]
    unfold clipQ
    rw [max_self]
    exact min_eq_left (by linarith)
  · unfold clipQ
    rw [max_eq_left (by linarith : -(bound ε) ≤ unclippedQ Mr ε Mr)]
    exact min_eq_right (le_of_lt htop)

/-- C3, counterexample to the claim as stated: at the default epsilon and
max rank 1 the unclipped top value exceeds +bound, so the clip acts at a true
endpoint (it is not a no-op, and the unclipped endpoint value does not lie in
[-bound, bound]). -/
theorem c3_endpoints_cx :
    bound (1/10000) < unclippedQ 1 (1/10000) 1 ∧
      clipQ (unclippedQ 1 (1/10000) 1) (-(bound (1/10000))) (bound (1/10000)) ≠
        unclippedQ 1 (1/10000) 1 := by decide

/-- C3, witness for the amended theorem at the default epsilon and max
rank 4 (the spec's five-value scenario). -/
theorem c3_endpoints_witness :
    unclippedQ 4 (1/10000) 0 = -(bound (1/10000)) ∧
    clipQ (unclippedQ 4 (1/10000) 0) (-(bound (1/10000))) (bound (1/10000)) =
      -(bound (1/10000)) ∧
    bound (1/10000) < unclippedQ 4 (1/10000) 4 ∧
    clipQ (unclippedQ 4 (1/10000) 4) (-(bound (1/10000))) (bound (1/10000)) =
      bound (1/10000) :=
  c3_endpoints_amended (1/10000) 4 (by decide) (by decide) (by decide)

/-- C4 (corrected).  With MORE input columns than fitted functions, transform
and inverse_transform do fail (the lookup interp_func_[i] raises IndexError);
but with FEWER input columns than fitted functions both silently succeed,
transforming the first columns and returning an output with the input's
column count.  The claim that both directions fail fast is false: see the
counterexample. -/
theorem c4_column_mismatch_amended (M : ErfModel) (fs : List (List (ℚ × ℚ)))
    (cols : List (List ℚ)) :
    (fs.length < cols.length →
      transformCols M fs 0 cols = Except.error ScalerErr.columnOutOfRange ∧
      inverseCols M fs 0 cols = Except.error ScalerErr.columnOutOfRange) ∧
    (cols.length ≤ fs.length →
      (∃ T, transformCols M fs 0 cols = Except.ok T ∧ T.length = cols.length) ∧
      ∃ T, inverseCols M fs 0 cols = Except.ok T ∧ T.length = cols.length) := by
  constructor
  · intro h
    exact ⟨transformCols_err M fs cols 0 (Nat.zero_le _) (by omega),
      inverseCols_err M fs cols 0 (Nat.zero_le _) (by omega)⟩
  · intro h
    exact ⟨transformCols_ok M fs cols 0 (by omega),
      inverseCols_ok M fs cols 0 (by omega)⟩

/-- C4, counterexample to the claim as stated: an instance fitted on two
columns, given a one-column input, silently transforms (and inverse
transforms) the first feature instead of failing. -/
theorem c4_column_mismatch_cx :
    transformCols erfId (fitAll [[0, 1], [0, 2]] (1/10000)) 0 [[5]] =
      Except.ok [[transform1 erfId (fitPoints [0, 1] (1/10000)) 5]] ∧
    inverseCols erfId (fitAll [[0, 1], [0, 2]] (1/10000)) 0 [[5]] =
      Except.ok [[inverseTransform1 erfId (fitPoints [0, 1] (1/10000)) 5]] :=
  ⟨rfl, rfl⟩

/-- C4, witness: the error direction at a concrete instance fitted on one
column given two, and the silent direction at a concrete instance fitted on
two columns given one. -/
theorem c4_column_mismatch_witness :
    (transformCols erfId (fitAll [[0, 1]] (1/10000)) 0 [[5], [6]] =
        Except.error ScalerErr.columnOutOfRange ∧
      inverseCols erfId (fitAll [[0, 1]] (1/10000)) 0 [[5], [6]] =
        Except.error ScalerErr.columnOutOfRange) ∧
    (∃ T, transformCols erfId (fitAll [[0, 1], [0, 2]] (1/10000)) 0 [[5]] =
        Except.ok T ∧ T.length = 1) ∧
    ∃ T, inverseCols erfId (fitAll [[0, 1], [0, 2]] (1/10000)) 0 [[5]] =
        Except.ok T ∧ T.length = 1 :=
  ⟨(c4_column_mismatch_amended erfId (fitAll [[0, 1]] (1/10000)) [[5], [6]]).1
      (by decide),
   (c4_column_mismatch_amended erfId (fitAll [[0, 1], [0, 2]] (1/10000))
      [[5]]).2 (by decide)⟩

/-- C5 (confirmed).  A column with exactly one distinct value yields
factor = 0, and line 97 divides the rank array by that zero factor with no
guard: under IEEE semantics the sole scaled quantile is 0/0 = NaN minus
bound, i.e. NaN - non-finite.  No branch of _fit assigns quantile 0. -/
theorem c5_single_value_division (x : List ℚ) (ε : ℚ)
    (h1 : (dropDuplicates x).length = 1) :
    factor (maxNat (rankOf (dropDuplicates x))) ε = 0 ∧
    scaledRankF (rankOf (dropDuplicates x)) ε = [FQ.nan] ∧
    ∀ q ∈ scaledRankF (rankOf (dropDuplicates x)) ε, q.isFinite = false := by
  obtain ⟨a, ha⟩ := List.length_eq_one.1 h1
  rw [ha]
  have hr : rankOf [a] = [0] := rfl
  rw [hr]
  have hf : factor (maxNat [0]) ε = 0 := by
    simp [factor, maxNat]
  have h2 : scaledRankF [0] ε = [FQ.nan] := by
    simp [scaledRankF, hf, fqDiv, fqSub, fqClip]
  refine ⟨hf, h2, ?_⟩
  rw [h2]
  intro q hq
  rw [List.mem_singleton.1 hq]
  rfl

/-- C5, witness at the concrete column [7, 7]. -/
theorem c5_single_value_division_witness :
    factor (maxNat (rankOf (dropDuplicates [7, 7]))) (1/10000) = 0 ∧
    scaledRankF (rankOf (dropDuplicates [7, 7])) (1/10000) = [FQ.nan] ∧
    ∀ q ∈ scaledRankF (rankOf (dropDuplicates [7, 7])) (1/10000),
      q.isFinite = false :=
  c5_single_value_division [7, 7] (1/10000) (by decide)

/-- C6 (corrected).  Deduplication keeps each distinct value exactly once
(with m <= n) and ranking assigns rank k to the k-th smallest unique value
with no averaged ties ([1,1,2,3] gives 3 uniques and value 1 gets rank 0);
but the deduplicated sequence is in FIRST-OCCURRENCE order, not strictly
increasing: see the counterexample. -/
theorem c6_dedup_rank_amended :
    (∀ x : List ℚ, (dropDuplicates x).Nodup ∧
      (∀ v, v ∈ dropDuplicates x ↔ v ∈ x) ∧
      (dropDuplicates x).length ≤ x.length ∧
      rankOf (dropDuplicates x) =
        (dropDuplicates x).map fun v => countLt (dropDuplicates x) v) ∧
    dropDuplicates [1, 1, 2, 3] = [1, 2, 3] ∧
    rankOf (dropDuplicates [1, 1, 2, 3]) = [0, 1, 2] :=
  ⟨fun x => ⟨nodup_dropDuplicates x, fun _ => mem_dropDuplicates,
    length_dropDuplicates x, rankOf_eq_countLt (nodup_dropDuplicates x)⟩,
   by decide, by decide⟩

/-- C6, counterexample to "strictly increasing": the column [3, 1, 2]
deduplicates to [3, 1, 2] (first occurrences in original order), which is
not sorted. -/
theorem c6_dedup_rank_cx :
    dropDuplicates [3, 1, 2] = [3, 1, 2] ∧
      ¬ (dropDuplicates [3, 1, 2]).Pairwise (· < ·) := by
  refine ⟨by decide, fun h => ?_⟩
  rw [(by decide : dropDuplicates [3, 1, 2] = ([3, 1, 2] : List ℚ))] at h
  have h1 := (List.pairwise_cons.1 h).1 1 (by simp)
  exact absurd h1 (by decide)

/-- C7 (confirmed).  Outside the fit-time range the fitted interpolant is
evaluated by linear extension of the boundary segment (no error is possible
- the evaluation is total - and no clamping to [-bound, bound] happens), and
the resulting quantile can exceed +bound, indeed exceed 1, as the concrete
instance shows. -/
theorem c7_extrapolation :
    (∀ (x : List ℚ) (ε t : ℚ), (∀ p ∈ fitPoints x ε, p.1 < t) →
      interpEval (fitPoints x ε) t = lastSeg (fitPoints x ε) t) ∧
    (∀ (x : List ℚ) (ε t : ℚ), 2 ≤ (fitPoints x ε).length →
      (∀ p ∈ fitPoints x ε, t < p.1) →
      interpEval (fitPoints x ε) t = firstSeg (fitPoints x ε) t) ∧
    interpEval (fitPoints [0, 1] (1/2)) 10 = 19/2 ∧
    bound (1/2) < interpEval (fitPoints [0, 1] (1/2)) 10 ∧
    (1 : ℚ) < interpEval (fitPoints [0, 1] (1/2)) 10 :=
  ⟨fun _ _ _ h => interpEval_beyond _ h,
   fun _ _ _ h2 h => interpEval_below_all _ h2 h,
   by decide, by decide, by decide⟩

/-- C7, witness for the universally quantified parts at a concrete fitted
feature and out-of-range queries on both sides. -/
theorem c7_extrapolation_witness :
    interpEval (fitPoints [0, 1] (1/2)) 10 = lastSeg (fitPoints [0, 1] (1/2)) 10 ∧
    interpEval (fitPoints [0, 1] (1/2)) (-5) =
      firstSeg (fitPoints [0, 1] (1/2)) (-5) :=
  ⟨c7_extrapolation.1 [0, 1] (1/2) 10 (by decide),
   c7_extrapolation.2.1 [0, 1] (1/2) (-5) (by decide) (by decide)⟩

/-- C8 (confirmed).  An input holding any non-finite value is rejected by
check_array before any mapping is constructed or applied: fit, transform
(on a fitted instance) and inverse_transform (on a fitted instance) all
surface the validation error and leave the instance state unchanged. -/
theorem c8_nonfinite_rejected (M : ErfModel) (s : Scaler)
    (fs : List (List (ℚ × ℚ))) (X : List (List FQ))
    (hnf : hasNonFinite X) (hfit : s.interpFuncs = some fs) :
    checkArray X = Except.error ScalerErr.nonFinite ∧
    fitM s X = (s, Except.error ScalerErr.nonFinite) ∧
    transformM M s X = (s, Except.error ScalerErr.nonFinite) ∧
    inverseM M s X = (s, Except.error ScalerErr.nonFinite) := by
  have hca := checkArray_err hnf
  refine ⟨hca, ?_, ?_, ?_⟩
  · unfold fitM; rw [hca]
  · unfold transformM; rw [hfit, hca]
  · unfold inverseM; rw [hfit, hca]

/-- C8, witness: a fitted instance given an input holding a NaN. -/
theorem c8_nonfinite_rejected_witness :
    checkArray [[FQ.nan]] = Except.error ScalerErr.nonFinite ∧
    fitM ⟨1/10000, some (fitAll [[0, 1]] (1/10000))⟩ [[FQ.nan]] =
      (⟨1/10000, some (fitAll [[0, 1]] (1/10000))⟩,
        Except.error ScalerErr.nonFinite) ∧
    transformM erfId ⟨1/10000, some (fitAll [[0, 1]] (1/10000))⟩ [[FQ.nan]] =
      (⟨1/10000, some (fitAll [[0, 1]] (1/10000))⟩,
        Except.error ScalerErr.nonFinite) ∧
    inverseM erfId ⟨1/10000, some (fitAll [[0, 1]] (1/10000))⟩ [[FQ.nan]] =
      (⟨1/10000, some (fitAll [[0, 1]] (1/10000))⟩,
        Except.error ScalerErr.nonFinite) :=
  c8_nonfinite_rejected erfId ⟨1/10000, some (fitAll [[0, 1]] (1/10000))⟩
    (fitAll [[0, 1]] (1/10000)) [[FQ.nan]] (by decide) rfl

/-- C9 (confirmed).  The parallel fan-out model - tasks cut into packets,
mapped, and reassembled strictly by original column index - produces, for
every worker count n, results identical to the sequential degree-1 run, for
fit, transform and inverse_transform alike; and the degree-1 fit equals the
stored per-column fit. -/
theorem c9_parallel_determinism (n : ℕ) (cols : List (List ℚ)) (ε : ℚ)
    (M : ErfModel) (fs : List (List (ℚ × ℚ))) :
    fitPar n cols ε = fitPar 1 cols ε ∧
    fitPar 1 cols ε = fitAll cols ε ∧
    transformPar n M fs cols = transformPar 1 M fs cols ∧
    inversePar n M fs cols = inversePar 1 M fs cols := by
  refine ⟨runParallel_degree_indep n _ cols, ?_,
    runParallel_degree_indep n _ cols, runParallel_degree_indep n _ cols⟩
  unfold fitPar fitAll
  rw [runParallel_eq]
  exact withIdx_map_val (fun c => fitPoints c ε) cols 0

/-- C10 (confirmed).  transform and inverse_transform write no attribute of
the instance: the state they return is exactly the state they were given,
also after a fit; and a repeated inverse_transform call (which rebuilds its
inverse interpolant afresh from the stored forward points) returns the same
result and state. -/
theorem c10_state_frame (M : ErfModel) (s : Scaler) (X Y : List (List FQ)) :
    (transformM M s X).1 = s ∧ (inverseM M s X).1 = s ∧
    (transformM M (fitM s Y).1 X).1 = (fitM s Y).1 ∧
    (inverseM M (fitM s Y).1 X).1 = (fitM s Y).1 ∧
    inverseM M (inverseM M s X).1 X = inverseM M s X := by
  refine ⟨transformM_fst M s X, inverseM_fst M s X, transformM_fst M _ X,
    inverseM_fst M _ X, ?_⟩
  rw [inverseM_fst M s X]

end GaussRankScaler
